import Mathlib

/-!
Verification of the mpunch-catalog filename-normalization and image-cleanup
utilities (`src/data/normalize_filenames.py`, `src/data/imgnormalizer.py`).

Strings are modelled as `List Char` (`Str`).  The Python string functions used
by the source (`os.path.splitext`, `str.rfind`, `os.path.basename`,
`str.replace`, `str.split`, `str.join`, `pathlib.PurePath.suffix`) are embedded
faithfully, and the pipeline functions are translated structurally from the
source.  The filesystem is an abstract existence predicate at planning time and
a per-operation success oracle at execution time; persistence is modelled as a
trace of filesystem events.
-/

set_option autoImplicit false

namespace MPunch

/-- Strings as lists of characters. -/
abbrev Str := List Char

/-- `str.replace('\\', '/')` acting on one character. -/
def bs2fs (c : Char) : Char := if c = '\\' then '/' else c

/-- `str.replace('/', '\\')` acting on one character. -/
def fs2bs (c : Char) : Char := if c = '/' then '\\' else c

/-- `image_path.replace('\\', '/')`. -/
def bs2fsStr (s : Str) : Str := s.map bs2fs

/-- `normalized_path.replace('/', '\\')`. -/
def fs2bsStr (s : Str) : Str := s.map fs2bs

/-- Index of the last character satisfying `q`, or `none`
(Python `str.rfind` generalised to a predicate; `rfind` returns `-1`
for "not found", modelled here as `none`). -/
def rfindIdxP (q : Char → Bool) : List Char → Option Nat
  | [] => none
  | x :: xs =>
    match rfindIdxP q xs with
    | some i => some (i + 1)
    | none => if q x then some 0 else none

/-- Index of the last occurrence of character `c` (Python `str.rfind`). -/
def rfindIdx (c : Char) (s : List Char) : Option Nat :=
  rfindIdxP (fun x => x = c) s

/-- `os.path.splitext` (posixpath: separator `/`, extension separator `.`).
Mirrors CPython `genericpath._splitext`: the extension starts at the last dot
only when it lies after the last `/` and some character strictly between the
position following the last `/` and the dot is not itself a dot (so leading
dots of the final component are part of the root). -/
def splitext (p : Str) : Str × Str :=
  match rfindIdx '.' p with
  | none => (p, [])
  | some di =>
    let fi : Nat :=
      match rfindIdx '/' p with
      | none => 0
      | some si => si + 1
    if fi ≤ di then
      if ((p.drop fi).take (di - fi)).any (fun c => c ≠ '.') then
        (p.take di, p.drop di)
      else
        (p, [])
    else
      (p, [])

/-- `normalize_filename` from `normalize_filenames.py`: strip everything from
the last `_` of the stem (exclusive of the extension). -/
def normalizeFilename (filename : Str) : Str :=
  if filename = [] then filename
  else
    let name_part := (splitext filename).1
    let extension := (splitext filename).2
    match rfindIdx '_' name_part with
    | none => filename
    | some i => name_part.take i ++ extension

/-- `os.path.basename` (posixpath): everything after the last `/`. -/
def basename (p : Str) : Str :=
  match rfindIdx '/' p with
  | none => p
  | some i => p.drop (i + 1)

/-- Python `str.split(c)`: always returns at least one (possibly empty) part. -/
def splitCh (c : Char) : List Char → List (List Char)
  | [] => [[]]
  | x :: xs =>
    let r := splitCh c xs
    if x = c then
      [] :: r
    else
      match r with
      | [] => [[x]]
      | h :: t => (x :: h) :: t

/-- Python `sep.join(parts)` for a one-character separator. -/
def joinSep (c : Char) : List (List Char) → List Char
  | [] => []
  | [x] => x
  | x :: y :: rest => x ++ c :: joinSep c (y :: rest)

/-- `normalize_image_path` from `normalize_filenames.py`: split the path on
`/` after rewriting `\` to `/`, normalize the last component, rejoin with `/`,
and rewrite every `/` back to `\` when the original path contained any `\`. -/
def normalizeImagePath (image_path : Str) : Str :=
  if image_path = [] then image_path
  else
    let path_parts := splitCh '/' (bs2fsStr image_path)
    let filename := path_parts.getLastD []
    let normalized_filename := normalizeFilename filename
    let parts2 := path_parts.dropLast ++ [normalized_filename]
    let normalized_path := joinSep '/' parts2
    if '\\' ∈ image_path then fs2bsStr normalized_path else normalized_path

/-- A JSON record: the optional `image_url` field (absent key modelled as
`none`; present-but-empty as `some []`) plus all remaining fields, carried
opaquely and preserved verbatim by the pipeline. -/
structure Rec where
  image_url : Option Str
  rest : List (Str × Str)
deriving DecidableEq, Repr

/-- One planned rename: `(old_file_path, new_file_path, json_record_index)`. -/
structure Op where
  src : Str
  dst : Str
  idx : Nat
deriving DecidableEq, Repr

/-- `str(Path(data_folder) / name)` for a plain (separator-free, non-dot)
component `name` and a folder path already in normal form. -/
def pathJoin (folder name : Str) : Str := folder ++ '/' :: name

/-- The body of the `get_file_operations` loop for a single record: `none`
when the record is skipped (missing/empty `image_url`, already-normalized
name, missing source file, or collision with an existing on-disk file),
`some op` when an operation is appended.  `disk` is the set of paths existing
on disk at planning time (`Path.exists`). -/
def planRec (folder : Str) (disk : Str → Bool) (i : Nat) (r : Rec) : Option Op :=
  match r.image_url with
  | none => none
  | some current_path =>
    if current_path = [] then none
    else
      let current_filename := basename (bs2fsStr current_path)
      let normalized_filename := normalizeFilename current_filename
      if current_filename = normalized_filename then none
      else
        let old_file_path := pathJoin folder current_filename
        let new_file_path := pathJoin folder normalized_filename
        if disk old_file_path = false then none
        else if disk new_file_path = true ∧ new_file_path ≠ old_file_path then none
        else some ⟨old_file_path, new_file_path, i⟩

/-- The `for idx, item in enumerate(json_data)` loop of `get_file_operations`,
carrying the running index. -/
def planOps (folder : Str) (disk : Str → Bool) : Nat → List Rec → List Op
  | _, [] => []
  | i, r :: rest =>
    match planRec folder disk i r with
    | some op => op :: planOps folder disk (i + 1) rest
    | none => planOps folder disk (i + 1) rest

/-- `get_file_operations(json_data, data_folder)` against disk state `disk`. -/
def getFileOperations (json_data : List Rec) (data_folder : Str) (disk : Str → Bool) : List Op :=
  planOps data_folder disk 0 json_data

/-- The JSON patch applied to a record whose rename succeeded:
`item['image_url'] = normalize_image_path(item['image_url'])`. -/
def patchRec (r : Rec) : Rec :=
  { r with image_url := r.image_url.map normalizeImagePath }

/-- The JSON-update statements of the executor's `try` block for one
operation: `none` models the raised exception when the record index is out of
range or the `image_url` key is absent. -/
def applyPatch (json_data : List Rec) (idx : Nat) : Option (List Rec) :=
  match json_data[idx]? with
  | none => none
  | some r =>
    match r.image_url with
    | none => none
    | some _ => some (json_data.set idx (patchRec r))

/-- The execution loop of `perform_normalization`: `ok k` tells whether
`os.rename` succeeds for the `k`-th operation (failure raises, is caught, and
the loop continues).  Returns the mutated document and `success_count`. -/
def execOps (ok : Nat → Bool) : Nat → List Op → List Rec → List Rec × Nat
  | _, [], json_data => (json_data, 0)
  | k, op :: rest, json_data =>
    if ok k then
      match applyPatch json_data op.idx with
      | some json2 =>
        let p := execOps ok (k + 1) rest json2
        (p.1, p.2 + 1)
      | none => execOps ok (k + 1) rest json_data
    else
      execOps ok (k + 1) rest json_data

/-- Filesystem events emitted by the persistence step. -/
inductive FsEvent where
  | copyFile (src dst : Str)
  | writeJson (path : Str) (data : List Rec)
deriving DecidableEq, Repr

/-- Fixed backup suffix appended to the JSON path by `save_json_data`. -/
def backupSuffix : Str := ".backup".toList

/-- `save_json_data(json_file_path, data, backup)` as its event trace:
`shutil.copy2` to the backup path first (when `backup`), then the JSON dump. -/
def saveJsonData (json_file_path : Str) (data : List Rec) (backup : Bool) : List FsEvent :=
  (if backup then [FsEvent.copyFile json_file_path (json_file_path ++ backupSuffix)] else [])
    ++ [FsEvent.writeJson json_file_path data]

/-- The persistence tail of `perform_normalization`: save (with backup, the
default) exactly when `success_count > 0`. -/
def finalize (json_file_path : Str) (json_data : List Rec) (success_count : Nat) : List FsEvent :=
  if 0 < success_count then saveJsonData json_file_path json_data true else []

/-- `perform_normalization` after the confirmation prompt (plan, execute,
persist), returning the mutated document, the success count, and the
filesystem event trace of the persistence step. -/
def performNormalization (ok : Nat → Bool) (json_file_path : Str) (json_data : List Rec)
    (data_folder : Str) (disk : Str → Bool) : List Rec × Nat × List FsEvent :=
  let operations := getFileOperations json_data data_folder disk
  let p := execOps ok 0 operations json_data
  (p.1, p.2, finalize json_file_path p.1 p.2)

/-- The body of the `extract_referenced_images` loop for one record: the
filename contributed to the referenced set, if any. -/
def refName (r : Rec) : Option Str :=
  match r.image_url with
  | none => none
  | some image_path =>
    if image_path = [] then none
    else
      let filename := basename (bs2fsStr image_path)
      if filename = [] then none else some filename

/-- `extract_referenced_images(json_data)` from `imgnormalizer.py`. -/
def extractReferencedImages (json_data : List Rec) : Finset Str :=
  json_data.foldl
    (fun acc r => match refName r with | some f => insert f acc | none => acc) ∅

/-- A directory entry as seen by `Path.iterdir()`: the entry's final
component and whether it is a regular file. -/
structure Entry where
  name : Str
  isFile : Bool
deriving DecidableEq, Repr

/-- `pathlib.PurePath.suffix` of a final component: the substring from the
last `.`, provided that dot is neither the first nor the last character. -/
def pathSuffix (name : Str) : Str :=
  match rfindIdx '.' name with
  | none => []
  | some i => if 0 < i ∧ i + 1 < name.length then name.drop i else []

/-- The extension allow-list of `get_images_in_folder`. -/
def imageExtensions : List Str :=
  [".png".toList, ".jpg".toList, ".jpeg".toList, ".gif".toList,
   ".bmp".toList, ".tiff".toList, ".webp".toList]

/-- The body of the `get_images_in_folder` loop for one entry: the name added
to the folder-image set, if any (`file_path.is_file() and
file_path.suffix.lower() in image_extensions`). -/
def folderImageName (e : Entry) : Option Str :=
  if e.isFile && imageExtensions.contains ((pathSuffix e.name).map Char.toLower)
  then some e.name else none

/-- `get_images_in_folder(folder_path)` over an abstract folder listing. -/
def getImagesInFolder (folder : List Entry) : Finset Str :=
  folder.foldl
    (fun acc e => match folderImageName e with | some f => insert f acc | none => acc) ∅

/-- `unused_images = images_in_folder - referenced_images` as computed by
`remove_unused_images`. -/
def unusedImages (folder : List Entry) (json_data : List Rec) : Finset Str :=
  getImagesInFolder folder \ extractReferencedImages json_data

/-! ### Spec-side definitions

The following definitions transcribe the specification's own wording (not the
source) and are compared with the source-level definitions above. -/

/-- Spec wording of C5: split into (stem, extension) at the last `.`,
extension empty when no `.` is present. -/
def splitAtLastDotNaive (f : Str) : Str × Str :=
  match rfindIdx '.' f with
  | none => (f, [])
  | some i => (f.take i, f.drop i)

/-- Spec wording of C5: locate the last `_` in the naive stem; if absent the
input is returned unchanged, otherwise the stem truncated before that `_`
with the original extension re-appended. -/
def specNormalizeNaive (f : Str) : Str :=
  let stem := (splitAtLastDotNaive f).1
  let ext := (splitAtLastDotNaive f).2
  match rfindIdx '_' stem with
  | none => f
  | some i => stem.take i ++ ext

/-- Amended wording of C5: the extension starts at the last `.` only when,
among the characters after the last `/` and before that dot, some character
is not itself a dot; otherwise (no dot, or only dots there) the extension is
empty and the whole input is the stem. -/
def splitAtLastDotAmended (f : Str) : Str × Str :=
  match rfindIdx '.' f with
  | none => (f, [])
  | some di =>
    let start : Nat :=
      match rfindIdx '/' f with
      | none => 0
      | some si => si + 1
    if ((f.take di).drop start).any (fun c => c ≠ '.') then
      (f.take di, f.drop di)
    else
      (f, [])

/-- The amended C5 normalization, stated from `splitAtLastDotAmended`. -/
def specNormalizeAmended (f : Str) : Str :=
  let stem := (splitAtLastDotAmended f).1
  let ext := (splitAtLastDotAmended f).2
  match rfindIdx '_' stem with
  | none => f
  | some i => stem.take i ++ ext

/-- A path separator of either style. -/
def isSepB (c : Char) : Bool := c = '/' || c = '\\'

/-- Index just past the last separator (of either style), `0` when none. -/
def segStart (p : Str) : Nat :=
  match rfindIdxP isSepB p with
  | none => 0
  | some i => i + 1

/-- The trailing filename segment of a path: everything after the last
separator of either style. -/
def trailingSegment (p : Str) : Str := p.drop (segStart p)

/-- Spec wording of C8: replace only the trailing filename segment with its
canonical form, leaving every other character (segments and separators) of
the original path unchanged. -/
def specReplaceLastSegment (p : Str) : Str :=
  p.take (segStart p) ++ normalizeFilename (trailingSegment p)

/-- Spec wording of C7: the last non-empty component of the path after
splitting on both separator styles (empty when every component is empty). -/
def lastNonEmptyComp (p : Str) : Str :=
  (((splitCh '/' (bs2fsStr p)).filter (fun x => x ≠ [])).getLastD [])

/-- The C7 claim's per-record contribution to the referenced set. -/
def claimRefName (r : Rec) : Option Str :=
  match r.image_url with
  | none => none
  | some image_path =>
    if image_path = [] then none
    else
      let filename := lastNonEmptyComp image_path
      if filename = [] then none else some filename

/-- The referenced-image set as described by the C7 claim. -/
def claimReferencedImages (json_data : List Rec) : Finset Str :=
  json_data.foldl
    (fun acc r => match claimRefName r with | some f => insert f acc | none => acc) ∅

/-- Index just past the last occurrence of `c` (`0` when absent). -/
def chStart (c : Char) (p : Str) : Nat :=
  match rfindIdx c p with
  | none => 0
  | some i => i + 1

/-- The record a successful/failed operation leaves at its index. -/
def stepResult (okc : Bool) (json : List Rec) (idx : Nat) : Option Rec :=
  if okc then
    match json[idx]? with
    | none => none
    | some r =>
      match r.image_url with
      | none => some r
      | some _ => some (patchRec r)
  else json[idx]?

/-- Concrete planning scenario: two records whose filenames both normalize to
`x.png`; both source files exist on disk, the destination does not. -/
def demoFolder : Str := "d".toList

def demoJson : List Rec :=
  [⟨some "x_1.png".toList, []⟩, ⟨some "x_2.png".toList, []⟩]

def demoDisk : Str → Bool :=
  fun p => p == "d/x_1.png".toList || p == "d/x_2.png".toList

/-- Concrete execution scenario: two records with distinct normalized names,
one of them under a subdirectory-style `image_url`. -/
def demoJson2 : List Rec :=
  [⟨some "imgs/a_1.png".toList, [("title".toList, "t0".toList)]⟩,
   ⟨some "b_2.png".toList, []⟩,
   ⟨none, []⟩]

def demoDisk2 : Str → Bool :=
  fun p => p == "d/a_1.png".toList || p == "d/b_2.png".toList

/-- Concrete cleanup scenario: an `image_url` ending in a separator. -/
def demoJson3 : List Rec := [⟨some "a/b/".toList, []⟩]

/-- The C1 claim's no-clobbering invariant over a list of operations. -/
def noClobber (ops : List Op) : Prop :=
  ∀ o1 ∈ ops, ∀ o2 ∈ ops, o1.dst = o2.dst → o1.src = o2.src

instance (ops : List Op) : Decidable (noClobber ops) := by
  unfold noClobber; infer_instance

/-! ### Lemmas about `rfindIdxP` and `rfindIdx` -/

theorem rfindIdxP_eq_none_iff {q : Char → Bool} {l : List Char} :
    rfindIdxP q l = none ↔ ∀ c ∈ l, q c = false := by
  induction l with
  | nil => simp [rfindIdxP]
  | cons x xs ih =>
    constructor
    · intro h c hc
      simp only [rfindIdxP] at h
      cases hx : rfindIdxP q xs with
      | some i => rw [hx] at h; cases h
      | none =>
        rw [hx] at h
        by_cases hq : q x = true
        · rw [if_pos hq] at h; cases h
        · rcases List.mem_cons.mp hc with rfl | hc2
          · simpa using hq
          · exact (ih.mp hx) c hc2
    · intro hall
      simp only [rfindIdxP]
      have hxs : rfindIdxP q xs = none :=
        ih.mpr fun c hc => hall c (List.mem_cons_of_mem _ hc)
      rw [hxs]
      have hx : q x = false := hall x (List.mem_cons_self _ _)
      simp [hx]

theorem rfindIdx_eq_none_iff {c : Char} {l : List Char} :
    rfindIdx c l = none ↔ c ∉ l := by
  rw [rfindIdx, rfindIdxP_eq_none_iff]
  constructor
  · intro h hmem
    have := h c hmem
    simp at this
  · intro h x hx
    simp only [decide_eq_false_iff_not]
    intro hxc; exact h (hxc ▸ hx)

theorem rfindIdxP_lt_length {q : Char → Bool} {l : List Char} {i : Nat}
    (h : rfindIdxP q l = some i) : i < l.length := by
  induction l generalizing i with
  | nil => cases h
  | cons x xs ih =>
    simp only [rfindIdxP] at h
    cases hx : rfindIdxP q xs with
    | some j =>
      rw [hx] at h
      cases h
      exact Nat.succ_lt_succ (ih hx)
    | none =>
      rw [hx] at h
      by_cases hq : q x
      · rw [if_pos hq] at h
        cases h
        exact Nat.succ_pos _
      · rw [if_neg hq] at h
        cases h

theorem rfindIdx_lt_length {c : Char} {l : List Char} {i : Nat}
    (h : rfindIdx c l = some i) : i < l.length :=
  rfindIdxP_lt_length h

theorem rfindIdxP_get {q : Char → Bool} {l : List Char} {i : Nat}
    (h : rfindIdxP q l = some i) : ∃ x, l[i]? = some x ∧ q x = true := by
  induction l generalizing i with
  | nil => cases h
  | cons x xs ih =>
    simp only [rfindIdxP] at h
    cases hx : rfindIdxP q xs with
    | some j =>
      rw [hx] at h
      cases h
      simpa using ih hx
    | none =>
      rw [hx] at h
      by_cases hq : q x
      · rw [if_pos hq] at h
        cases h
        exact ⟨x, by simp, hq⟩
      · rw [if_neg hq] at h
        cases h

theorem rfindIdxP_after {q : Char → Bool} {l : List Char} {i : Nat}
    (h : rfindIdxP q l = some i) : ∀ c ∈ l.drop (i + 1), q c = false := by
  induction l generalizing i with
  | nil => cases h
  | cons x xs ih =>
    simp only [rfindIdxP] at h
    cases hx : rfindIdxP q xs with
    | some j =>
      rw [hx] at h
      cases h
      simpa using ih hx
    | none =>
      rw [hx] at h
      by_cases hq : q x
      · rw [if_pos hq] at h
        cases h
        simpa using rfindIdxP_eq_none_iff.mp hx
      · rw [if_neg hq] at h
        cases h

theorem rfindIdxP_append_none {q : Char → Bool} {t s : List Char}
    (hs : rfindIdxP q s = none) :
    rfindIdxP q (t ++ s) = rfindIdxP q t := by
  induction t with
  | nil => simpa using hs
  | cons x xs ih =>
    simp only [List.cons_append, rfindIdxP, List.append_eq, ih]

theorem rfindIdxP_append_some {q : Char → Bool} {t s : List Char} {i : Nat}
    (hs : rfindIdxP q s = some i) :
    rfindIdxP q (t ++ s) = some (t.length + i) := by
  induction t with
  | nil => simpa using hs
  | cons x xs ih =>
    simp only [List.cons_append, rfindIdxP, List.append_eq, ih, List.length_cons]
    congr 1
    omega

theorem rfindIdxP_map {q q' : Char → Bool} {f : Char → Char} {l : List Char}
    (hf : ∀ c, q (f c) = q' c) :
    rfindIdxP q (l.map f) = rfindIdxP q' l := by
  induction l with
  | nil => rfl
  | cons x xs ih => simp only [List.map_cons, rfindIdxP, ih, hf]

theorem map_eq_self_of_id {f : Char → Char} {l : List Char}
    (h : ∀ c ∈ l, f c = c) : l.map f = l := by
  induction l with
  | nil => rfl
  | cons x xs ih =>
    simp only [List.map_cons, h x (List.mem_cons_self _ _),
      ih fun c hc => h c (List.mem_cons_of_mem _ hc)]

/-! ### Lemmas about `splitext` and `normalizeFilename` -/

theorem splitext_fst_append_snd (p : Str) : (splitext p).1 ++ (splitext p).2 = p := by
  unfold splitext
  cases rfindIdx '.' p with
  | none => simp
  | some di =>
    simp only
    split
    · split
      · exact List.take_append_drop di p
      · simp
    · simp

theorem splitext_fst_subset (p : Str) : (splitext p).1 ⊆ p := by
  unfold splitext
  cases rfindIdx '.' p with
  | none => simp
  | some di =>
    simp only
    split
    · split
      · exact List.take_subset di p
      · simp
    · simp

theorem splitext_snd_suffix (p : Str) : (splitext p).2 <:+ p :=
  ⟨(splitext p).1, splitext_fst_append_snd p⟩

/-- `os.path.splitext` coincides with the amended C5 description of the
stem/extension split. -/
theorem splitext_eq_amended (p : Str) : splitext p = splitAtLastDotAmended p := by
  unfold splitext splitAtLastDotAmended
  cases rfindIdx '.' p with
  | none => rfl
  | some di =>
    simp only
    cases rfindIdx '/' p with
    | none =>
      simp only [Nat.zero_le, if_true, Nat.sub_zero, List.drop_zero]
    | some si =>
      simp only [List.drop_take]
      by_cases h : si + 1 ≤ di
      · rw [if_pos h]
      · rw [if_neg h]
        have hz : di - (si + 1) = 0 := by omega
        rw [hz]
        simp

/-- Zeta-reduced restatement of `normalizeFilename`. -/
theorem normalizeFilename_eq (f : Str) :
    normalizeFilename f =
      if f = [] then f
      else
        match rfindIdx '_' (splitext f).1 with
        | none => f
        | some i => (splitext f).1.take i ++ (splitext f).2 := rfl

/-- C5, amended: `normalize_filename` follows the amended stem/extension
split description. -/
theorem normalizeFilename_eq_specAmended (f : Str) :
    normalizeFilename f = specNormalizeAmended f := by
  rw [normalizeFilename_eq]
  unfold specNormalizeAmended
  rw [← splitext_eq_amended]
  by_cases hf : f = []
  · subst hf
    rw [if_pos rfl]
    cases h : rfindIdx '_' (splitext []).1 with
    | none => rfl
    | some i =>
      have := rfindIdx_lt_length h
      have h0 : (splitext ([] : Str)).1 = [] := rfl
      rw [h0] at this
      cases this
  · rw [if_neg hf]

theorem normalizeFilename_subset (f : Str) : normalizeFilename f ⊆ f := by
  rw [normalizeFilename_eq]
  by_cases hf : f = []
  · rw [if_pos hf]; exact fun c hc => hc
  · rw [if_neg hf]
    cases rfindIdx '_' (splitext f).1 with
    | none => exact fun c hc => hc
    | some i =>
      intro c hc
      rcases List.mem_append.mp hc with h1 | h2
      · exact splitext_fst_subset f (List.take_subset i _ h1)
      · exact (splitext_snd_suffix f).subset h2

theorem normalizeFilename_of_no_underscore {f : Str}
    (h : '_' ∉ (splitext f).1) : normalizeFilename f = f := by
  rw [normalizeFilename_eq]
  by_cases hf : f = []
  · rw [if_pos hf]
  · rw [if_neg hf, rfindIdx_eq_none_iff.mpr h]

/-! ### Lemmas about `splitCh`, `joinSep` and `normalizeImagePath` -/

theorem rfindIdx_cons (c x : Char) (xs : List Char) :
    rfindIdx c (x :: xs) =
      match rfindIdx c xs with
      | some i => some (i + 1)
      | none => if x = c then some 0 else none := by
  unfold rfindIdx
  simp only [rfindIdxP]
  cases rfindIdxP (fun y => decide (y = c)) xs <;> simp

theorem rfindIdx_some_mem {c : Char} {l : List Char} {i : Nat}
    (h : rfindIdx c l = some i) : c ∈ l := by
  obtain ⟨x, hx, hq⟩ := rfindIdxP_get h
  have hxc : x = c := by simpa using hq
  subst hxc
  exact List.getElem?_mem hx

theorem splitCh_ne_nil (c : Char) (p : List Char) : splitCh c p ≠ [] := by
  induction p with
  | nil => simp [splitCh]
  | cons x xs ih =>
    simp only [splitCh]
    by_cases hx : x = c
    · simp [hx]
    · rw [if_neg hx]
      cases h : splitCh c xs with
      | nil => simp
      | cons a t => simp

theorem splitCh_of_not_mem {c : Char} {p : List Char} (h : c ∉ p) :
    splitCh c p = [p] := by
  induction p with
  | nil => rfl
  | cons x xs ih =>
    have hx : ¬x = c := fun hxc => h (hxc ▸ List.mem_cons_self _ _)
    have hxs : c ∉ xs := fun hc => h (List.mem_cons_of_mem _ hc)
    simp only [splitCh, if_neg hx, ih hxs]

theorem splitCh_two_le {c : Char} {p : List Char} (h : c ∈ p) :
    2 ≤ (splitCh c p).length := by
  induction p with
  | nil => cases h
  | cons x xs ih =>
    simp only [splitCh]
    by_cases hx : x = c
    · rw [if_pos hx]
      have := splitCh_ne_nil c xs
      cases hs : splitCh c xs with
      | nil => exact absurd hs this
      | cons a t => simp
    · rw [if_neg hx]
      have hmem : c ∈ xs := by
        rcases List.mem_cons.mp h with h1 | h2
        · exact absurd h1.symm hx
        · exact h2
      cases hs : splitCh c xs with
      | nil => exact absurd hs (splitCh_ne_nil c xs)
      | cons a t =>
        rw [hs] at ih
        have := ih hmem
        simpa using this

theorem joinSep_cons (c : Char) (a : List Char) {l : List (List Char)}
    (h : l ≠ []) : joinSep c (a :: l) = a ++ c :: joinSep c l := by
  cases l with
  | nil => exact absurd rfl h
  | cons b t => rfl

/-- Joining the split parts with the last one replaced by `q` rebuilds the
prefix of the string up to (and including) the last separator, followed by
`q`. -/
theorem joinSep_dropLast_append (c : Char) (p : Str) (q : Str) :
    joinSep c ((splitCh c p).dropLast ++ [q]) = p.take (chStart c p) ++ q := by
  induction p generalizing q with
  | nil => simp [splitCh, chStart, rfindIdx, rfindIdxP, joinSep]
  | cons x xs ih =>
    have hstart : chStart c (x :: xs) =
        match rfindIdx c xs with
        | some i => i + 2
        | none => if x = c then 1 else 0 := by
      unfold chStart
      rw [rfindIdx_cons]
      cases rfindIdx c xs with
      | some i => rfl
      | none =>
        by_cases hx : x = c
        · simp [hx]
        · simp [hx]
    cases hfind : rfindIdx c xs with
    | none =>
      have hnm : c ∉ xs := rfindIdx_eq_none_iff.mp hfind
      rw [hstart, hfind]
      by_cases hx : x = c
      · simp only [splitCh, if_pos hx, splitCh_of_not_mem hnm, hx]
        simp [joinSep]
      · simp only [splitCh, if_neg hx, splitCh_of_not_mem hnm]
        simp [joinSep]
    | some i =>
      have hmem : c ∈ xs := rfindIdx_some_mem hfind
      have h2 : 2 ≤ (splitCh c xs).length := splitCh_two_le hmem
      rw [hstart, hfind]
      by_cases hx : x = c
      · simp only [splitCh, if_pos hx]
        cases hs : splitCh c xs with
        | nil => exact absurd hs (splitCh_ne_nil c xs)
        | cons a t =>
          have ht : t ≠ [] := by
            rw [hs] at h2
            cases t with
            | nil => simp at h2
            | cons b t2 => simp
          have hdl : (([] : List Char) :: a :: t).dropLast = [] :: (a :: t).dropLast := by
            simp [List.dropLast_cons_of_ne_nil]
          rw [hdl]
          have hne2 : (a :: t).dropLast ++ [q] ≠ [] := by simp
          rw [List.cons_append, joinSep_cons c [] hne2]
          rw [← hs, ih q, hx]
          have hcs : chStart c xs = i + 1 := by unfold chStart; rw [hfind]
          rw [hcs]
          simp [List.take_succ_cons]
      · simp only [splitCh, if_neg hx]
        cases hs : splitCh c xs with
        | nil => exact absurd hs (splitCh_ne_nil c xs)
        | cons a t =>
          have ht : t ≠ [] := by
            rw [hs] at h2
            cases t with
            | nil => simp at h2
            | cons b t2 => simp
          have hdl : ((x :: a) :: t).dropLast = (x :: a) :: t.dropLast :=
            List.dropLast_cons_of_ne_nil ht
          rw [hdl]
          have hne2 : t.dropLast ++ [q] ≠ [] := by simp
          rw [List.cons_append, joinSep_cons c (x :: a) hne2]
          have ihq := ih q
          rw [hs] at ihq
          have hdl2 : (a :: t).dropLast = a :: t.dropLast :=
            List.dropLast_cons_of_ne_nil ht
          rw [hdl2, List.cons_append, joinSep_cons c a hne2] at ihq
          calc (x :: a) ++ c :: joinSep c (t.dropLast ++ [q])
              = x :: (a ++ c :: joinSep c (t.dropLast ++ [q])) := rfl
            _ = x :: (xs.take (chStart c xs) ++ q) := by rw [ihq]
            _ = (x :: xs).take (chStart c xs + 1) ++ q := by
                simp [List.take_succ_cons]
          congr 2
          unfold chStart
          rw [hfind]

/-- The last split part is the substring after the last separator. -/
theorem splitCh_getLastD (c : Char) (p : Str) :
    (splitCh c p).getLastD [] = p.drop (chStart c p) := by
  induction p with
  | nil => rfl
  | cons x xs ih =>
    have hstart : chStart c (x :: xs) =
        match rfindIdx c xs with
        | some i => i + 2
        | none => if x = c then 1 else 0 := by
      unfold chStart
      rw [rfindIdx_cons]
      cases rfindIdx c xs with
      | some i => rfl
      | none =>
        by_cases hx : x = c
        · simp [hx]
        · simp [hx]
    cases hfind : rfindIdx c xs with
    | none =>
      have hnm : c ∉ xs := rfindIdx_eq_none_iff.mp hfind
      rw [hstart, hfind]
      by_cases hx : x = c
      · simp [splitCh, hx, splitCh_of_not_mem hnm, chStart, hfind]
      · simp [splitCh, hx, splitCh_of_not_mem hnm]
    | some i =>
      have hmem : c ∈ xs := rfindIdx_some_mem hfind
      have h2 : 2 ≤ (splitCh c xs).length := splitCh_two_le hmem
      rw [hstart, hfind]
      have hdrop : (x :: xs).drop (i + 2) = xs.drop (i + 1) := rfl
      rw [hdrop]
      have hresult : xs.drop (chStart c xs) = xs.drop (i + 1) := by
        unfold chStart
        rw [hfind]
      by_cases hx : x = c
      · simp only [splitCh, if_pos hx]
        cases hs : splitCh c xs with
        | nil => exact absurd hs (splitCh_ne_nil c xs)
        | cons a t =>
          rw [← hresult, ← ih, hs]
          rfl
      · simp only [splitCh, if_neg hx]
        cases hs : splitCh c xs with
        | nil => exact absurd hs (splitCh_ne_nil c xs)
        | cons a t =>
          have ht : t ≠ [] := by
            rw [hs] at h2
            cases t with
            | nil => simp at h2
            | cons b t2 => simp
          rw [← hresult, ← ih, hs]
          cases t with
          | nil => exact absurd rfl ht
          | cons b t2 => rfl


/-! ### Separator lemmas and the characterization of `normalizeImagePath` -/

theorem bs2fs_slash (c : Char) : (decide (bs2fs c = '/')) = isSepB c := by
  unfold bs2fs isSepB
  by_cases h1 : c = '\\'
  · simp [h1]
  · rw [if_neg h1]
    by_cases h2 : c = '/'
    · simp [h1, h2]
    · simp [h1, h2]

theorem rfindIdx_slash_bs2fsStr (p : Str) :
    rfindIdx '/' (bs2fsStr p) = rfindIdxP isSepB p :=
  rfindIdxP_map fun c => bs2fs_slash c

theorem chStart_bs2fsStr (p : Str) : chStart '/' (bs2fsStr p) = segStart p := by
  unfold chStart segStart
  rw [rfindIdx_slash_bs2fsStr]

theorem trailingSegment_sep_free (p : Str) :
    ∀ c ∈ trailingSegment p, isSepB c = false := by
  unfold trailingSegment segStart
  cases h : rfindIdxP isSepB p with
  | none =>
    intro c hc
    exact rfindIdxP_eq_none_iff.mp h c (by simpa using hc)
  | some i =>
    intro c hc
    exact rfindIdxP_after h c hc

theorem not_sep_ne {c : Char} (h : isSepB c = false) : c ≠ '/' ∧ c ≠ '\\' := by
  unfold isSepB at h
  constructor
  · intro hc; subst hc; simp at h
  · intro hc; subst hc; simp at h

theorem bs2fsStr_of_no_bs {s : Str} (h : '\\' ∉ s) : bs2fsStr s = s :=
  map_eq_self_of_id fun c hc => by
    unfold bs2fs
    rw [if_neg]
    intro hcb
    exact h (hcb ▸ hc)

theorem fs2bsStr_of_no_fs {s : Str} (h : '/' ∉ s) : fs2bsStr s = s :=
  map_eq_self_of_id fun c hc => by
    unfold fs2bs
    rw [if_neg]
    intro hcb
    exact h (hcb ▸ hc)

theorem fs2bs_bs2fs (c : Char) : fs2bs (bs2fs c) = fs2bs c := by
  unfold bs2fs fs2bs
  by_cases h1 : c = '\\'
  · simp [h1]
  · rw [if_neg h1]

theorem isSepB_fs2bs (c : Char) : isSepB (fs2bs c) = isSepB c := by
  unfold fs2bs isSepB
  by_cases h1 : c = '/'
  · simp [h1]
  · rw [if_neg h1]

/-- The source's rejoin-after-split computation, characterized: keep the part
of the slash-rewritten path up to and including the last slash, and normalize
what follows. -/
theorem normalizeImagePath_eq (p : Str) :
    normalizeImagePath p =
      if '\\' ∈ p
      then fs2bsStr ((bs2fsStr p).take (segStart p) ++
        normalizeFilename ((bs2fsStr p).drop (segStart p)))
      else (bs2fsStr p).take (segStart p) ++
        normalizeFilename ((bs2fsStr p).drop (segStart p)) := by
  by_cases hp : p = []
  · subst hp
    simp [normalizeImagePath, bs2fsStr, segStart, rfindIdxP, normalizeFilename]
  · unfold normalizeImagePath
    rw [if_neg hp]
    simp only
    rw [splitCh_getLastD, joinSep_dropLast_append, chStart_bs2fsStr]

theorem trailingSegment_of_sep_free {s : Str}
    (h : ∀ c ∈ s, isSepB c = false) : trailingSegment s = s := by
  unfold trailingSegment segStart
  rw [rfindIdxP_eq_none_iff.mpr h]
  rfl

theorem trailingSegment_append_sep {x : Char} {t s : Str}
    (hx : isSepB x = true) (h : ∀ c ∈ s, isSepB c = false) :
    trailingSegment (t ++ x :: s) = s := by
  have h1 : rfindIdxP isSepB (x :: s) = some 0 := by
    simp only [rfindIdxP, rfindIdxP_eq_none_iff.mpr h, hx, if_true]
  have h2 : rfindIdxP isSepB (t ++ x :: s) = some (t.length + 0) :=
    rfindIdxP_append_some h1
  unfold trailingSegment segStart
  rw [h2]
  show (t ++ x :: s).drop (t.length + 0 + 1) = s
  have h3 : t.length + 0 + 1 = t.length + 1 := by omega
  rw [h3]
  exact List.drop_append 1

theorem nf_trailing_sep_free (p : Str) :
    ∀ c ∈ normalizeFilename (trailingSegment p), isSepB c = false :=
  fun c hc => trailingSegment_sep_free p c (normalizeFilename_subset _ hc)

theorem bs2fsStr_drop_seg (p : Str) :
    (bs2fsStr p).drop (segStart p) = trailingSegment p := by
  unfold bs2fsStr
  rw [← List.map_drop]
  have hnb : '\\' ∉ p.drop (segStart p) := by
    intro hmem
    have := trailingSegment_sep_free p '\\' hmem
    simp [isSepB] at this
  exact bs2fsStr_of_no_bs hnb

/-- C8, amended: `normalize_image_path` replaces only the trailing filename
segment, except that a path containing any backslash is rewritten with every
separator turned into a backslash. -/
theorem normalizeImagePath_eq_spec (p : Str) :
    normalizeImagePath p =
      if '\\' ∈ p then fs2bsStr (specReplaceLastSegment p)
      else specReplaceLastSegment p := by
  rw [normalizeImagePath_eq]
  unfold specReplaceLastSegment trailingSegment
  by_cases hb : '\\' ∈ p
  · rw [if_pos hb, if_pos hb]
    have hdrop : (bs2fsStr p).drop (segStart p) = p.drop (segStart p) :=
      bs2fsStr_drop_seg p
    rw [hdrop]
    unfold fs2bsStr bs2fsStr
    rw [List.map_append, List.map_append]
    congr 1
    rw [← List.map_take, List.map_map]
    have hfun : (fs2bs ∘ bs2fs) = fs2bs := funext fs2bs_bs2fs
    rw [hfun]
  · rw [if_neg hb, if_neg hb, bs2fsStr_of_no_bs hb]

theorem trailingSegment_take_append {p s : Str}
    (hs : ∀ c ∈ s, isSepB c = false) :
    trailingSegment (p.take (segStart p) ++ s) = s := by
  unfold segStart
  cases h : rfindIdxP isSepB p with
  | none =>
    simp only [List.take_zero, List.nil_append]
    exact trailingSegment_of_sep_free hs
  | some i =>
    obtain ⟨x, hx, hq⟩ := rfindIdxP_get h
    have htake : p.take (i + 1) = p.take i ++ [x] := by
      rw [List.take_succ, hx]
      rfl
    rw [htake, List.append_assoc, List.singleton_append]
    exact trailingSegment_append_sep hq hs

theorem trailingSegment_map_take_append {p s : Str}
    (hs : ∀ c ∈ s, isSepB c = false) :
    trailingSegment (fs2bsStr (p.take (segStart p)) ++ s) = s := by
  unfold segStart
  cases h : rfindIdxP isSepB p with
  | none =>
    simp only [List.take_zero]
    have : fs2bsStr ([] : Str) = [] := rfl
    rw [this, List.nil_append]
    exact trailingSegment_of_sep_free hs
  | some i =>
    obtain ⟨x, hx, hq⟩ := rfindIdxP_get h
    have htake : p.take (i + 1) = p.take i ++ [x] := by
      rw [List.take_succ, hx]
      rfl
    rw [htake]
    unfold fs2bsStr
    rw [List.map_append]
    have hsingle : List.map fs2bs [x] = [fs2bs x] := rfl
    rw [hsingle, List.append_assoc, List.singleton_append]
    exact trailingSegment_append_sep (by rw [isSepB_fs2bs]; exact hq) hs

/-- The trailing filename segment of the rewritten path is the canonical form
of the trailing filename segment of the original path. -/
theorem trailingSegment_normalizeImagePath (p : Str) :
    trailingSegment (normalizeImagePath p) =
      normalizeFilename (trailingSegment p) := by
  rw [normalizeImagePath_eq_spec]
  have hsf := nf_trailing_sep_free p
  by_cases hb : '\\' ∈ p
  · rw [if_pos hb]
    unfold specReplaceLastSegment
    have hnf : fs2bsStr (normalizeFilename (trailingSegment p)) =
        normalizeFilename (trailingSegment p) := by
      apply fs2bsStr_of_no_fs
      intro hmem
      have := hsf '/' hmem
      simp [isSepB] at this
    unfold fs2bsStr at hnf ⊢
    rw [List.map_append, hnf]
    exact trailingSegment_map_take_append hsf
  · rw [if_neg hb]
    unfold specReplaceLastSegment
    exact trailingSegment_take_append hsf

/-- `os.path.basename` after slash rewriting computes the trailing segment. -/
theorem basename_bs2fsStr (p : Str) : basename (bs2fsStr p) = trailingSegment p := by
  unfold basename
  rw [rfindIdx_slash_bs2fsStr]
  unfold trailingSegment segStart
  cases h : rfindIdxP isSepB p with
  | none =>
    show bs2fsStr p = p.drop 0
    rw [List.drop_zero]
    apply bs2fsStr_of_no_bs
    intro hmem
    have := rfindIdxP_eq_none_iff.mp h '\\' hmem
    simp [isSepB] at this
  | some i =>
    show List.drop (i + 1) (List.map bs2fs p) = p.drop (i + 1)
    rw [← List.map_drop]
    apply bs2fsStr_of_no_bs
    intro hmem
    have := rfindIdxP_after h '\\' hmem
    simp [isSepB] at this

theorem trailingSegment_pathJoin {folder s : Str}
    (hs : ∀ c ∈ s, isSepB c = false) :
    trailingSegment (pathJoin folder s) = s :=
  trailingSegment_append_sep (by simp [isSepB]) hs

/-! ### Planner lemmas -/

theorem pathJoin_inj {folder a b : Str} (h : pathJoin folder a = pathJoin folder b) :
    a = b := by
  unfold pathJoin at h
  have h2 := List.append_cancel_left h
  injection h2

/-- Zeta-reduced restatement of `planRec`. -/
theorem planRec_eq (folder : Str) (disk : Str → Bool) (i : Nat) (r : Rec) :
    planRec folder disk i r =
      match r.image_url with
      | none => none
      | some current_path =>
        if current_path = [] then none
        else if basename (bs2fsStr current_path) =
            normalizeFilename (basename (bs2fsStr current_path)) then none
        else if disk (pathJoin folder (basename (bs2fsStr current_path))) = false then none
        else if disk (pathJoin folder (normalizeFilename (basename (bs2fsStr current_path)))) = true ∧
            pathJoin folder (normalizeFilename (basename (bs2fsStr current_path))) ≠
              pathJoin folder (basename (bs2fsStr current_path)) then none
        else some ⟨pathJoin folder (basename (bs2fsStr current_path)),
          pathJoin folder (normalizeFilename (basename (bs2fsStr current_path))), i⟩ := rfl

/-- Everything the planner guarantees about an emitted operation. -/
theorem planRec_some {folder : Str} {disk : Str → Bool} {i : Nat} {r : Rec} {op : Op}
    (h : planRec folder disk i r = some op) :
    op.idx = i ∧
    ∃ url, r.image_url = some url ∧ url ≠ [] ∧
      op.src = pathJoin folder (basename (bs2fsStr url)) ∧
      op.dst = pathJoin folder (normalizeFilename (basename (bs2fsStr url))) ∧
      basename (bs2fsStr url) ≠ normalizeFilename (basename (bs2fsStr url)) ∧
      disk op.src = true ∧ disk op.dst = false := by
  rw [planRec_eq] at h
  split at h
  · cases h
  · rename_i url hurl
    split at h
    · cases h
    · rename_i h0
      split at h
      · cases h
      · rename_i h1
        split at h
        · cases h
        · rename_i h2
          split at h
          · cases h
          · rename_i h3
            have hne : pathJoin folder (normalizeFilename (basename (bs2fsStr url))) ≠
                pathJoin folder (basename (bs2fsStr url)) :=
              fun he => h1 (pathJoin_inj he).symm
            have hdn : disk (pathJoin folder (normalizeFilename (basename (bs2fsStr url)))) = false := by
              cases hd : disk (pathJoin folder (normalizeFilename (basename (bs2fsStr url)))) with
              | false => rfl
              | true => exact absurd ⟨hd, hne⟩ h3
            have hdo : disk (pathJoin folder (basename (bs2fsStr url))) = true := by
              cases hd : disk (pathJoin folder (basename (bs2fsStr url))) with
              | false => exact absurd hd h2
              | true => rfl
            cases h
            exact ⟨rfl, url, hurl, h0, rfl, rfl, h1, hdo, hdn⟩

theorem planOps_mem {folder : Str} {disk : Str → Bool} :
    ∀ {start : Nat} {json : List Rec} {op : Op}, op ∈ planOps folder disk start json →
      start ≤ op.idx ∧ ∃ r, json[op.idx - start]? = some r ∧
        planRec folder disk op.idx r = some op := by
  intro start json
  induction json generalizing start with
  | nil => intro op h; cases h
  | cons r rest ih =>
    intro op h
    unfold planOps at h
    cases hpr : planRec folder disk start r with
    | some op0 =>
      rw [hpr] at h
      rcases List.mem_cons.mp h with rfl | h2
      · have hidx : op.idx = start := (planRec_some hpr).1
        refine ⟨Nat.le_of_eq hidx.symm, r, ?_, ?_⟩
        · rw [hidx, Nat.sub_self]
          simp
        · rw [hidx]
          exact hpr
      · obtain ⟨hle, r2, hr2, hpr2⟩ := ih h2
        refine ⟨by omega, r2, ?_, hpr2⟩
        have hsub : op.idx - start = (op.idx - (start + 1)) + 1 := by omega
        rw [hsub]
        simpa using hr2
    | none =>
      rw [hpr] at h
      obtain ⟨hle, r2, hr2, hpr2⟩ := ih h
      refine ⟨by omega, r2, ?_, hpr2⟩
      have hsub : op.idx - start = (op.idx - (start + 1)) + 1 := by omega
      rw [hsub]
      simpa using hr2

theorem planOps_pairwise (folder : Str) (disk : Str → Bool) :
    ∀ (start : Nat) (json : List Rec),
      (planOps folder disk start json).Pairwise (fun a b => a.idx < b.idx) := by
  intro start json
  induction json generalizing start with
  | nil => exact List.Pairwise.nil
  | cons r rest ih =>
    unfold planOps
    cases hpr : planRec folder disk start r with
    | none => exact ih (start + 1)
    | some op =>
      refine List.Pairwise.cons ?_ (ih (start + 1))
      intro b hb
      have h1 := (planOps_mem hb).1
      have h2 : op.idx = start := (planRec_some hpr).1
      omega

theorem getFileOperations_pairwise_ne (json : List Rec) (folder : Str) (disk : Str → Bool) :
    (getFileOperations json folder disk).Pairwise (fun a b => a.idx ≠ b.idx) :=
  (planOps_pairwise folder disk 0 json).imp fun h => Nat.ne_of_lt h

theorem getFileOperations_mem {json : List Rec} {folder : Str} {disk : Str → Bool} {op : Op}
    (h : op ∈ getFileOperations json folder disk) :
    ∃ r, json[op.idx]? = some r ∧ planRec folder disk op.idx r = some op := by
  obtain ⟨-, r, hr, hpr⟩ := planOps_mem h
  exact ⟨r, by simpa using hr, hpr⟩

/-! ### Executor lemmas -/

theorem applyPatch_getElem_ne {json json2 : List Rec} {idx j : Nat}
    (h : applyPatch json idx = some json2) (hne : idx ≠ j) :
    json2[j]? = json[j]? := by
  unfold applyPatch at h
  split at h
  · cases h
  · split at h
    · cases h
    · cases h
      exact List.getElem?_set_ne hne

theorem applyPatch_of_url {json : List Rec} {idx : Nat} {r : Rec} {url : Str}
    (hr : json[idx]? = some r) (hu : r.image_url = some url) :
    applyPatch json idx = some (json.set idx (patchRec r)) := by
  unfold applyPatch
  rw [hr]
  show (match r.image_url with
        | none => none
        | some _ => some (json.set idx (patchRec r))) = some (json.set idx (patchRec r))
  rw [hu]

theorem applyPatch_none_of_no_url {json : List Rec} {idx : Nat} {r : Rec}
    (hr : json[idx]? = some r) (hu : r.image_url = none) :
    applyPatch json idx = none := by
  unfold applyPatch
  rw [hr]
  show (match r.image_url with
        | none => none
        | some _ => some (json.set idx (patchRec r))) = none
  rw [hu]

theorem applyPatch_none_of_oob {json : List Rec} {idx : Nat}
    (hr : json[idx]? = none) : applyPatch json idx = none := by
  unfold applyPatch
  rw [hr]

/-- Records not targeted by any operation are untouched by the executor. -/
theorem execOps_frame {ok : Nat → Bool} :
    ∀ {ops : List Op} {k : Nat} {json : List Rec} {j : Nat},
      (∀ op ∈ ops, op.idx ≠ j) →
      (execOps ok k ops json).1[j]? = json[j]? := by
  intro ops
  induction ops with
  | nil => intro k json j h; rfl
  | cons op rest ih =>
    intro k json j h
    have hop : op.idx ≠ j := h op (List.mem_cons_self _ _)
    have hrest : ∀ o ∈ rest, o.idx ≠ j := fun o ho => h o (List.mem_cons_of_mem _ ho)
    unfold execOps
    by_cases hok : ok k
    · rw [if_pos hok]
      cases hap : applyPatch json op.idx with
      | some json2 =>
        show (execOps ok (k + 1) rest json2).1[j]? = json[j]?
        rw [ih hrest]
        exact applyPatch_getElem_ne hap hop
      | none =>
        exact ih hrest
    · rw [if_neg hok]
      exact ih hrest

theorem stepResult_congr {b : Bool} {json1 json : List Rec} {idx : Nat}
    (h : json1[idx]? = json[idx]?) : stepResult b json1 idx = stepResult b json idx := by
  unfold stepResult
  rw [h]

/-- What the executor leaves at the record index of the `i`-th operation,
provided the operations target pairwise-distinct records. -/
theorem execOps_getElem_at (ok : Nat → Bool) :
    ∀ {ops : List Op}, ops.Pairwise (fun a b => a.idx ≠ b.idx) →
      ∀ (k : Nat) (json : List Rec) (i : Nat) (hi : i < ops.length),
      (execOps ok k ops json).1[(ops[i]).idx]? = stepResult (ok (k + i)) json ((ops[i]).idx) := by
  intro ops
  induction ops with
  | nil => intro _ k json i hi; cases hi
  | cons op rest ih =>
    intro hpw k json i hi
    have hpw_head : ∀ o ∈ rest, o.idx ≠ op.idx := fun o ho =>
      (List.rel_of_pairwise_cons hpw ho).symm
    have hpw_rest : rest.Pairwise (fun a b => a.idx ≠ b.idx) := hpw.of_cons
    cases i with
    | zero =>
      show (execOps ok k (op :: rest) json).1[op.idx]? = stepResult (ok (k + 0)) json op.idx
      have hk0 : k + 0 = k := Nat.add_zero k
      rw [hk0]
      unfold execOps
      by_cases hok : ok k
      · rw [if_pos hok]
        unfold stepResult
        rw [if_pos hok]
        cases hr : json[op.idx]? with
        | none =>
          rw [applyPatch_none_of_oob hr]
          rw [execOps_frame hpw_head]
          rw [hr]
        | some r =>
          cases hu : r.image_url with
          | none =>
            rw [applyPatch_none_of_no_url hr hu]
            rw [execOps_frame hpw_head]
            rw [hr]
            show some r = (match r.image_url with
              | none => some r
              | some _ => some (patchRec r))
            rw [hu]
          | some url =>
            rw [applyPatch_of_url hr hu]
            show (execOps ok (k + 1) rest (json.set op.idx (patchRec r))).1[op.idx]? = _
            rw [execOps_frame hpw_head]
            have hlt : op.idx < json.length := by
              rcases List.getElem?_eq_some.mp hr with ⟨hl, -⟩
              exact hl
            rw [List.getElem?_set_self hlt]
            show some (patchRec r) = (match r.image_url with
              | none => some r
              | some _ => some (patchRec r))
            rw [hu]
      · rw [if_neg hok]
        unfold stepResult
        rw [if_neg hok]
        exact execOps_frame hpw_head
    | succ j =>
      have hj : j < rest.length := Nat.lt_of_succ_lt_succ hi
      have hget : (op :: rest)[j + 1] = rest[j] := rfl
      rw [hget]
      have hmem : rest[j] ∈ rest := List.getElem_mem hj
      have hne : op.idx ≠ (rest[j]).idx := (hpw_head _ hmem).symm
      have hplus : k + (j + 1) = (k + 1) + j := by omega
      rw [hplus]
      unfold execOps
      by_cases hok : ok k
      · rw [if_pos hok]
        cases hap : applyPatch json op.idx with
        | some json2 =>
          show (execOps ok (k + 1) rest json2).1[(rest[j]).idx]? = _
          rw [ih hpw_rest (k + 1) json2 j hj]
          exact stepResult_congr (applyPatch_getElem_ne hap hne)
        | none =>
          exact ih hpw_rest (k + 1) json j hj
      · rw [if_neg hok]
        exact ih hpw_rest (k + 1) json j hj

/-! ### Lemmas for the cleanup pipeline sets -/

theorem foldl_insertOpt_mem {α : Type} (f : α → Option Str) (l : List α)
    (init : Finset Str) (x : Str) :
    x ∈ l.foldl (fun acc a => match f a with | some s => insert s acc | none => acc) init ↔
      x ∈ init ∨ ∃ a ∈ l, f a = some x := by
  induction l generalizing init with
  | nil => simp
  | cons a t ih =>
    simp only [List.foldl_cons]
    rw [ih]
    cases hf : f a with
    | none =>
      simp only [List.mem_cons]
      constructor
      · rintro (h1 | ⟨b, hb, hfb⟩)
        · exact Or.inl h1
        · exact Or.inr ⟨b, Or.inr hb, hfb⟩
      · rintro (h1 | ⟨b, (rfl | hb), hfb⟩)
        · exact Or.inl h1
        · rw [hf] at hfb; cases hfb
        · exact Or.inr ⟨b, hb, hfb⟩
    | some s =>
      simp only [Finset.mem_insert, List.mem_cons]
      constructor
      · rintro ((rfl | h1) | ⟨b, hb, hfb⟩)
        · exact Or.inr ⟨a, Or.inl rfl, by rw [hf]⟩
        · exact Or.inl h1
        · exact Or.inr ⟨b, Or.inr hb, hfb⟩
      · rintro (h1 | ⟨b, (rfl | hb), hfb⟩)
        · exact Or.inl (Or.inr h1)
        · rw [hf] at hfb
          injection hfb with he
          exact Or.inl (Or.inl he.symm)
        · exact Or.inr ⟨b, hb, hfb⟩

theorem extractReferencedImages_mem (json_data : List Rec) (x : Str) :
    x ∈ extractReferencedImages json_data ↔ ∃ r ∈ json_data, refName r = some x := by
  unfold extractReferencedImages
  rw [foldl_insertOpt_mem]
  simp

theorem claimReferencedImages_mem (json_data : List Rec) (x : Str) :
    x ∈ claimReferencedImages json_data ↔ ∃ r ∈ json_data, claimRefName r = some x := by
  unfold claimReferencedImages
  rw [foldl_insertOpt_mem]
  simp

theorem getImagesInFolder_mem (folder : List Entry) (x : Str) :
    x ∈ getImagesInFolder folder ↔ ∃ e ∈ folder, folderImageName e = some x := by
  unfold getImagesInFolder
  rw [foldl_insertOpt_mem]
  simp

/-- Zeta-reduced restatement of `refName`. -/
theorem refName_eq (r : Rec) :
    refName r =
      match r.image_url with
      | none => none
      | some image_path =>
        if image_path = [] then none
        else if basename (bs2fsStr image_path) = [] then none
        else some (basename (bs2fsStr image_path)) := rfl

theorem refName_eq_some {r : Rec} {x : Str} :
    refName r = some x ↔
      ∃ u, r.image_url = some u ∧ u ≠ [] ∧ basename (bs2fsStr u) = x ∧ x ≠ [] := by
  rw [refName_eq]
  split
  · rename_i hu
    simp [hu]
  · rename_i u hu
    by_cases h0 : u = []
    · rw [if_pos h0]
      constructor
      · intro hc; cases hc
      · rintro ⟨u2, hu2, hne, -, -⟩
        rw [hu] at hu2
        injection hu2 with he
        exact absurd (he ▸ h0) hne
    · rw [if_neg h0]
      by_cases hb : basename (bs2fsStr u) = []
      · rw [if_pos hb]
        constructor
        · intro hc; cases hc
        · rintro ⟨u2, hu2, -, hbase, hx⟩
          rw [hu] at hu2
          injection hu2 with he
          subst he
          exact absurd (hbase ▸ hb) hx
      · rw [if_neg hb]
        constructor
        · intro hc
          injection hc with he
          exact ⟨u, hu, h0, he, he ▸ hb⟩
        · rintro ⟨u2, hu2, -, hbase, -⟩
          rw [hu] at hu2
          injection hu2 with he
          subst he
          rw [hbase]

theorem folderImageName_eq_some {e : Entry} {x : Str} :
    folderImageName e = some x ↔
      e.name = x ∧ e.isFile = true ∧
        ((pathSuffix e.name).map Char.toLower) ∈ imageExtensions := by
  unfold folderImageName
  by_cases h : (e.isFile && imageExtensions.contains ((pathSuffix e.name).map Char.toLower)) = true
  · rw [if_pos h]
    rcases Bool.and_eq_true_iff.mp h with ⟨h1, h2⟩
    have h3 : ((pathSuffix e.name).map Char.toLower) ∈ imageExtensions := by
      simpa using h2
    constructor
    · intro hc
      injection hc with he
      exact ⟨he, h1, h3⟩
    · rintro ⟨he, -, -⟩
      rw [he]
  · rw [if_neg h]
    constructor
    · intro hc; cases hc
    · rintro ⟨he, h1, h2⟩
      exact absurd (Bool.and_eq_true_iff.mpr ⟨h1, by simpa using h2⟩) h


theorem finalize_eq (path : Str) (json_data : List Rec) (succ : Nat) :
    finalize path json_data succ =
      if 0 < succ then
        [FsEvent.copyFile path (path ++ backupSuffix), FsEvent.writeJson path json_data]
      else [] := by
  by_cases h : 0 < succ <;> simp [finalize, saveJsonData, h]

/-! ## Claim theorems -/

/-- C1, counterexample: with two records `x_1.png` and `x_2.png` both on disk
and `x.png` absent, the planner emits two operations with the same destination
`d/x.png` but distinct sources, refuting the claimed no-clobbering invariant
(the collision check consults only the on-disk state, not earlier planned
operations). -/
theorem C1_counterexample :
    (getFileOperations demoJson demoFolder demoDisk).map (fun o => (o.src, o.dst)) =
      [("d/x_1.png".toList, "d/x.png".toList), ("d/x_2.png".toList, "d/x.png".toList)] ∧
    ¬ noClobber (getFileOperations demoJson demoFolder demoDisk) := by
  constructor
  · decide
  · decide

/-- C1, amended: every planned operation's source path exists on disk at
planning time and its destination path does not exist on disk at planning
time; however two operations may share a destination with distinct sources. -/
theorem C1_plan_source_exists_dest_fresh (json_data : List Rec) (folder : Str)
    (disk : Str → Bool) (op : Op) (hop : op ∈ getFileOperations json_data folder disk) :
    disk op.src = true ∧ disk op.dst = false := by
  obtain ⟨r, -, hpr⟩ := getFileOperations_mem hop
  obtain ⟨-, url, -, -, -, -, -, hsrc, hdst⟩ := planRec_some hpr
  exact ⟨hsrc, hdst⟩

/-- C1 witness: the amended theorem evaluated on the concrete scenario. -/
theorem C1_witness :
    demoDisk (pathJoin demoFolder "x_1.png".toList) = true ∧
    demoDisk (pathJoin demoFolder "x.png".toList) = false :=
  C1_plan_source_exists_dest_fresh demoJson demoFolder demoDisk
    ⟨pathJoin demoFolder "x_1.png".toList, pathJoin demoFolder "x.png".toList, 0⟩
    (by decide)

/-- C2: for every record whose planned rename succeeds during execution, the
rewritten `image_url` of that record in the final document has a trailing
filename segment equal to the filename (trailing segment) of the operation's
destination path, whatever happens to the other operations. -/
theorem C2_processed_record_consistent (json_data : List Rec) (folder : Str)
    (disk : Str → Bool) (ok : Nat → Bool) (i : Nat)
    (hi : i < (getFileOperations json_data folder disk).length)
    (hok : ok i = true) :
    ∃ r : Rec,
      (execOps ok 0 (getFileOperations json_data folder disk) json_data).1[
        ((getFileOperations json_data folder disk)[i]).idx]? = some r ∧
      ∃ u, r.image_url = some u ∧
        trailingSegment u =
          trailingSegment (((getFileOperations json_data folder disk)[i]).dst) := by
  have hpw := getFileOperations_pairwise_ne json_data folder disk
  have hmem : (getFileOperations json_data folder disk)[i] ∈
      getFileOperations json_data folder disk := List.getElem_mem hi
  obtain ⟨r0, hr0, hpr⟩ := getFileOperations_mem hmem
  obtain ⟨-, url, hurl, -, -, hdst, -, -, -⟩ := planRec_some hpr
  have hstep := execOps_getElem_at ok hpw 0 json_data i hi
  rw [Nat.zero_add] at hstep
  rw [hstep]
  unfold stepResult
  rw [hok, if_pos rfl, hr0]
  refine ⟨patchRec r0, ?_, ?_⟩
  · show (match r0.image_url with
      | none => some r0
      | some _ => some (patchRec r0)) = some (patchRec r0)
    rw [hurl]
  · refine ⟨normalizeImagePath url, ?_, ?_⟩
    · show (patchRec r0).image_url = some (normalizeImagePath url)
      unfold patchRec
      rw [hurl]
      rfl
    · have hsf : ∀ c ∈ normalizeFilename (basename (bs2fsStr url)), isSepB c = false := by
        intro c hc
        rw [basename_bs2fsStr] at hc
        exact nf_trailing_sep_free url c hc
      rw [hdst, trailingSegment_pathJoin hsf, basename_bs2fsStr]
      exact trailingSegment_normalizeImagePath url

/-- C2 witness: the theorem evaluated on a concrete successful execution. -/
theorem C2_witness :
    ∃ r : Rec,
      (execOps (fun _ => true) 0
        (getFileOperations demoJson2 demoFolder demoDisk2) demoJson2).1[
        ((getFileOperations demoJson2 demoFolder demoDisk2).get ⟨0, by decide⟩).idx]? = some r ∧
      ∃ u, r.image_url = some u ∧
        trailingSegment u =
          trailingSegment (((getFileOperations demoJson2 demoFolder demoDisk2).get
            ⟨0, by decide⟩).dst) :=
  C2_processed_record_consistent demoJson2 demoFolder demoDisk2 (fun _ => true) 0
    (by decide) rfl

/-- C3: the persistence tail of `perform_normalization` writes the full
document back if and only if `success_count > 0`, and then the backup copy
(original path plus the fixed `.backup` suffix) precedes the overwrite; with
`success_count = 0` neither a write nor a backup happens. -/
theorem C3_persist_iff_success (ok : Nat → Bool) (json_file_path : Str)
    (json_data : List Rec) (data_folder : Str) (disk : Str → Bool) :
    ((performNormalization ok json_file_path json_data data_folder disk).2.1 = 0 →
      (performNormalization ok json_file_path json_data data_folder disk).2.2 = []) ∧
    (0 < (performNormalization ok json_file_path json_data data_folder disk).2.1 →
      (performNormalization ok json_file_path json_data data_folder disk).2.2 =
        [FsEvent.copyFile json_file_path (json_file_path ++ backupSuffix),
         FsEvent.writeJson json_file_path
           (performNormalization ok json_file_path json_data data_folder disk).1]) := by
  constructor
  · intro h0
    have h0' : (execOps ok 0 (getFileOperations json_data data_folder disk) json_data).2 = 0 := h0
    show finalize json_file_path
      (execOps ok 0 (getFileOperations json_data data_folder disk) json_data).1
      (execOps ok 0 (getFileOperations json_data data_folder disk) json_data).2 = []
    rw [h0', finalize_eq]
    simp
  · intro h1
    have h1' : 0 < (execOps ok 0 (getFileOperations json_data data_folder disk) json_data).2 := h1
    show finalize json_file_path
      (execOps ok 0 (getFileOperations json_data data_folder disk) json_data).1
      (execOps ok 0 (getFileOperations json_data data_folder disk) json_data).2 =
      [FsEvent.copyFile json_file_path (json_file_path ++ backupSuffix),
       FsEvent.writeJson json_file_path
         (execOps ok 0 (getFileOperations json_data data_folder disk) json_data).1]
    rw [finalize_eq, if_pos h1']

/-- C3 witness: a run with no successes emits no events; a fully successful
run emits exactly the backup copy followed by the JSON write. -/
theorem C3_witness :
    (performNormalization (fun _ => false) "cat.json".toList demoJson2
      demoFolder demoDisk2).2.2 = [] ∧
    (performNormalization (fun _ => true) "cat.json".toList demoJson2
      demoFolder demoDisk2).2.2 =
      [FsEvent.copyFile "cat.json".toList ("cat.json".toList ++ backupSuffix),
       FsEvent.writeJson "cat.json".toList
         (performNormalization (fun _ => true) "cat.json".toList demoJson2
           demoFolder demoDisk2).1] :=
  ⟨(C3_persist_iff_success (fun _ => false) "cat.json".toList demoJson2
      demoFolder demoDisk2).1 (by decide),
   (C3_persist_iff_success (fun _ => true) "cat.json".toList demoJson2
      demoFolder demoDisk2).2 (by decide)⟩

/-- C4: if the rename of the operation targeting a record fails, that record
is left exactly as it was in the final document; if it succeeds, the record is
patched.  Operations target pairwise-distinct records, and execution continues
past failures. -/
theorem C4_failed_rename_leaves_record (json_data : List Rec) (folder : Str)
    (disk : Str → Bool) (ok : Nat → Bool) (i : Nat)
    (hi : i < (getFileOperations json_data folder disk).length) :
    (ok i = false →
      (execOps ok 0 (getFileOperations json_data folder disk) json_data).1[
        ((getFileOperations json_data folder disk)[i]).idx]? =
      json_data[((getFileOperations json_data folder disk)[i]).idx]?) ∧
    (ok i = true →
      ∃ r, json_data[((getFileOperations json_data folder disk)[i]).idx]? = some r ∧
        (execOps ok 0 (getFileOperations json_data folder disk) json_data).1[
          ((getFileOperations json_data folder disk)[i]).idx]? = some (patchRec r)) := by
  have hpw := getFileOperations_pairwise_ne json_data folder disk
  have hstep := execOps_getElem_at ok hpw 0 json_data i hi
  rw [Nat.zero_add] at hstep
  constructor
  · intro hf
    rw [hstep]
    unfold stepResult
    rw [hf]
    simp
  · intro ht
    have hmem : (getFileOperations json_data folder disk)[i] ∈
        getFileOperations json_data folder disk := List.getElem_mem hi
    obtain ⟨r0, hr0, hpr⟩ := getFileOperations_mem hmem
    obtain ⟨-, url, hurl, -, -, -, -, -, -⟩ := planRec_some hpr
    refine ⟨r0, hr0, ?_⟩
    rw [hstep]
    unfold stepResult
    rw [ht, if_pos rfl, hr0]
    show (match r0.image_url with
      | none => some r0
      | some _ => some (patchRec r0)) = some (patchRec r0)
    rw [hurl]

/-- C4 witness: in a run where the first rename fails and the second succeeds,
the first record stays untouched and the second is patched. -/
theorem C4_witness :
    ((fun k => decide (k = 1)) 0 = false →
      (execOps (fun k => decide (k = 1)) 0
        (getFileOperations demoJson2 demoFolder demoDisk2) demoJson2).1[
        ((getFileOperations demoJson2 demoFolder demoDisk2).get ⟨0, by decide⟩).idx]? =
      demoJson2[((getFileOperations demoJson2 demoFolder demoDisk2).get
        ⟨0, by decide⟩).idx]?) ∧
    ((fun k => decide (k = 1)) 1 = true →
      ∃ r, demoJson2[((getFileOperations demoJson2 demoFolder demoDisk2).get
          ⟨1, by decide⟩).idx]? = some r ∧
        (execOps (fun k => decide (k = 1)) 0
          (getFileOperations demoJson2 demoFolder demoDisk2) demoJson2).1[
          ((getFileOperations demoJson2 demoFolder demoDisk2).get
            ⟨1, by decide⟩).idx]? = some (patchRec r)) :=
  ⟨(C4_failed_rename_leaves_record demoJson2 demoFolder demoDisk2
      (fun k => decide (k = 1)) 0 (by decide)).1,
   (C4_failed_rename_leaves_record demoJson2 demoFolder demoDisk2
      (fun k => decide (k = 1)) 1 (by decide)).2⟩

/-- C5, counterexample: on the dotfile-style name `.a_b`, `os.path.splitext`
keeps the leading dot in the stem, so the code strips `_b`, while the claim's
naive split at the last `.` would leave the input unchanged. -/
theorem C5_counterexample :
    normalizeFilename ".a_b".toList ≠ specNormalizeNaive ".a_b".toList ∧
    normalizeFilename ".a_b".toList = ".a".toList ∧
    specNormalizeNaive ".a_b".toList = ".a_b".toList := by
  refine ⟨by decide, by decide, by decide⟩

/-- C5, amended: `normalize_filename` splits at the last `.` only when some
character after the last `/` and before that dot is not itself a dot
(otherwise the extension is empty and the whole input is the stem), then
truncates the stem at its last `_`, reattaching the extension; inputs whose
stem has no `_` are returned unchanged. -/
theorem C5_amended_normalize_split (f : Str) :
    normalizeFilename f = specNormalizeAmended f :=
  normalizeFilename_eq_specAmended f

/-- C6: the unused-image set equals the folder listing restricted to regular
files whose lowercased suffix is one of the seven allowed image extensions,
minus the referenced filenames. -/
theorem C6_unused_images_characterization (folder : List Entry)
    (json_data : List Rec) (x : Str) :
    x ∈ unusedImages folder json_data ↔
      ((∃ e ∈ folder, e.name = x ∧ e.isFile = true ∧
          ((pathSuffix e.name).map Char.toLower) ∈ imageExtensions) ∧
        x ∉ extractReferencedImages json_data) := by
  unfold unusedImages
  rw [Finset.mem_sdiff]
  simp only [getImagesInFolder_mem, folderImageName_eq_some]

/-- C7, counterexample: for a record whose `image_url` ends in a separator
(`a/b/`), `os.path.basename` yields the empty last component and the record
contributes nothing, while the claim's last non-empty component would
contribute `b`. -/
theorem C7_counterexample :
    extractReferencedImages demoJson3 = ∅ ∧
    claimReferencedImages demoJson3 = {"b".toList} ∧
    extractReferencedImages demoJson3 ≠ claimReferencedImages demoJson3 := by
  refine ⟨by decide, by decide, by decide⟩

/-- C7, amended: the filename contributed by a record is the (possibly empty)
component after the last separator of its `image_url`; records with a missing
or empty `image_url`, or whose last component is empty (trailing separator),
contribute nothing. -/
theorem C7_referenced_names (json_data : List Rec) (x : Str) :
    x ∈ extractReferencedImages json_data ↔
      ∃ r ∈ json_data, ∃ u, r.image_url = some u ∧ u ≠ [] ∧
        basename (bs2fsStr u) = x ∧ x ≠ [] := by
  simp only [extractReferencedImages_mem, refName_eq_some]

/-- C8, counterexample: on the mixed-separator path `a/b\x_1.png` the code
rewrites every separator to a backslash, changing the `/` after `a`, while the
claim requires all original separator characters to be preserved. -/
theorem C8_counterexample :
    normalizeImagePath "a/b\\x_1.png".toList = "a\\b\\x.png".toList ∧
    specReplaceLastSegment "a/b\\x_1.png".toList = "a/b\\x.png".toList ∧
    normalizeImagePath "a/b\\x_1.png".toList ≠
      specReplaceLastSegment "a/b\\x_1.png".toList := by
  refine ⟨by decide, by decide, by decide⟩

/-- C8, amended: `normalize_image_path` replaces only the trailing filename
segment with its canonical form; a path without backslashes keeps all its
separators unchanged, while a path containing any backslash has every
separator of the result rewritten to a backslash. -/
theorem C8_amended_separator_style (p : Str) :
    normalizeImagePath p =
      if '\\' ∈ p then fs2bsStr (specReplaceLastSegment p)
      else specReplaceLastSegment p :=
  normalizeImagePath_eq_spec p

/-- C9: filenames with no `_` in the stem are fixed points of
`normalize_filename`, and the function is idempotent on any input whose
normalized form has no underscore left. -/
theorem C9_normalize_fixed_points :
    (∀ f : Str, '_' ∉ (splitext f).1 → normalizeFilename f = f) ∧
    (∀ f : Str, '_' ∉ normalizeFilename f →
      normalizeFilename (normalizeFilename f) = normalizeFilename f) := by
  constructor
  · exact fun f h => normalizeFilename_of_no_underscore h
  · intro f h
    apply normalizeFilename_of_no_underscore
    intro hmem
    exact h (splitext_fst_subset _ hmem)

/-- C9 witness: both parts evaluated on concrete filenames. -/
theorem C9_witness :
    normalizeFilename "a.png".toList = "a.png".toList ∧
    normalizeFilename (normalizeFilename "a_b.png".toList) =
      normalizeFilename "a_b.png".toList :=
  ⟨C9_normalize_fixed_points.1 "a.png".toList (by decide),
   C9_normalize_fixed_points.2 "a_b.png".toList (by decide)⟩

/-- C10: `normalize_filename` maps the empty string to itself, always returns
either its input or a strictly shorter string, and the extension split off by
the stem/extension split survives verbatim as a suffix of the output; the
function is total by construction. -/
theorem C10_normalize_total_shrinking :
    normalizeFilename ([] : Str) = [] ∧
    ∀ f : Str, (normalizeFilename f = f ∨ (normalizeFilename f).length < f.length) ∧
      (splitext f).2 <:+ normalizeFilename f := by
  constructor
  · rfl
  · intro f
    by_cases hf : f = []
    · subst hf
      exact ⟨Or.inl rfl, [], rfl⟩
    · rw [normalizeFilename_eq, if_neg hf]
      cases h : rfindIdx '_' (splitext f).1 with
      | none => exact ⟨Or.inl rfl, splitext_snd_suffix f⟩
      | some i =>
        have hi := rfindIdx_lt_length h
        have hlen := congrArg List.length (splitext_fst_append_snd f)
        rw [List.length_append] at hlen
        constructor
        · right
          show ((splitext f).1.take i ++ (splitext f).2).length < f.length
          rw [List.length_append, List.length_take]
          omega
        · exact ⟨(splitext f).1.take i, rfl⟩

end MPunch
